import Mathlib

/-!
Shallow embedding of the diff-review pipeline of this repository
(`scripts/analyze_code.py`, `scripts/format_review.py`, `scripts/filter_diff.py`),
together with proofs about the embedded functions.

Python strings are modelled as lists of characters (`Str`); Python's `len`
counts characters, as does `List.length` here, so "size in bytes" statements
are stated in characters (they coincide on ASCII inputs).
-/

abbrev Str := List Char

/-- Python `str.strip()`: remove leading and trailing whitespace. -/
def pyStrip (l : Str) : Str :=
  ((l.dropWhile Char.isWhitespace).reverse.dropWhile Char.isWhitespace).reverse

/-- Fuel-driven worker for `splitOnList`; the fuel starts at the input length,
keeping the recursion structural so that the kernel can evaluate it. -/
def splitOnListAux (sep : List Char) : Nat → List Char → List (List Char)
  | _, [] => [[]]
  | 0, l => [l]
  | fuel+1, c :: rest =>
    if sep ≠ [] ∧ sep.isPrefixOf (c :: rest) then
      [] :: splitOnListAux sep fuel ((c :: rest).drop sep.length)
    else
      match splitOnListAux sep fuel rest with
      | [] => [[c]]
      | p :: ps => (c :: p) :: ps

/-- Python `text.split(sep)` for a non-empty separator: non-overlapping
left-to-right splitting on occurrences of `sep`. -/
def splitOnList (sep l : List Char) : List (List Char) :=
  splitOnListAux sep l.length l

/-- Python `sep.join(pieces)`. -/
def joinSep {α : Type} (sep : List α) : List (List α) → List α
  | [] => []
  | [p] => p
  | p :: q :: ps => p ++ sep ++ joinSep sep (q :: ps)

/-- The separator `'diff --git '` used by `chunk_diff`. -/
def sepDG : Str := ("diff --git ").data

def newlineStr : Str := [ '\n']

/-- The per-piece treatment of `diff_content.split('diff --git ')` inside
`chunk_diff` (analyze_code.py lines 154-160): the piece at index 0 is skipped
when whitespace-only and otherwise kept verbatim; every later piece gets the
separator `'diff --git '` re-attached. -/
def reassemble (pieces : List Str) : List Str :=
  match pieces with
  | [] => []
  | p :: rest =>
    (if pyStrip p = [] then [] else [p]) ++ rest.map (fun s => sepDG ++ s)

/-- The greedy packing loop of `chunk_diff` (analyze_code.py lines 149-172);
a chunk is closed as `'\n'.join(current_chunk)`. -/
def packChunks (maxChars : Nat) : List Str → List Str → Nat → List Str → List Str
  | [], current, _, chunks =>
    if current = [] then chunks else chunks ++ [joinSep newlineStr current]
  | s :: rest, current, size, chunks =>
    if size + s.length > maxChars ∧ current ≠ [] then
      packChunks maxChars rest [s] s.length (chunks ++ [joinSep newlineStr current])
    else
      packChunks maxChars rest (current ++ [s]) (size + s.length) chunks

/-- `chunk_diff(diff_content, max_tokens)` from analyze_code.py: a diff no
longer than `max_tokens * 4` characters is returned whole; otherwise the diff
is split on `'diff --git '` boundaries and greedily packed. -/
def chunk_diff (diff_content : Str) (max_tokens : Nat) : List Str :=
  let maxChars := max_tokens * 4
  if diff_content.length ≤ maxChars then [diff_content]
  else packChunks maxChars (reassemble (splitOnList sepDG diff_content)) [] 0 []

/-- Companion to `packChunks` that records each chunk as its list of sections
(before the `'\n'` join); used to state which sections share a chunk. -/
def packGroups (maxChars : Nat) : List Str → List Str → Nat → List (List Str) → List (List Str)
  | [], current, _, groups => if current = [] then groups else groups ++ [current]
  | s :: rest, current, size, groups =>
    if size + s.length > maxChars ∧ current ≠ [] then
      packGroups maxChars rest [s] s.length (groups ++ [current])
    else
      packGroups maxChars rest (current ++ [s]) (size + s.length) groups

/-- Section-level view of `chunk_diff`: the same greedy loop, but keeping each
chunk as its list of sections. -/
def chunkGroups (diff_content : Str) (max_tokens : Nat) : List (List Str) :=
  let maxChars := max_tokens * 4
  if diff_content.length ≤ maxChars then [[diff_content]]
  else packGroups maxChars (reassemble (splitOnList sepDG diff_content)) [] 0 []

/-- The text before the first `'diff --git '` marker (the whole text when the
marker never occurs). -/
def firstPiece (diff_content : Str) : Str := (splitOnList sepDG diff_content).headI

/-- Concrete diff text exercising `chunk_diff`: a three-character prelude
followed by two file sections, 34 characters in total. -/
def exDiff : Str := ("abcdiff --git x\ndiff --git yyyyyyy").data


/-- Python `s.split(sep)` at `String` level, via `splitOnList` (kept
kernel-evaluable). -/
def pySplit (sep s : String) : List String :=
  (splitOnList sep.data s.data).map (fun l => String.mk l)

/-- Python `str.strip()` at `String` level. -/
def pyStripStr (s : String) : String := String.mk (pyStrip s.data)

/-- Python `str.startswith(pre)`. -/
def pyStartsWith (pre s : String) : Bool := pre.data.isPrefixOf s.data

/-- Decimal value of a digit list (Python `int(s)` for the digit-only strings
reachable behind an `isdigit()` guard). -/
def digitsToNat (l : List Char) : Nat := l.foldl (fun n c => n * 10 + (c.toNat - 48)) 0

/-! Data model shared by `analyze_code.py` and `format_review.py`. -/

/-- A JSON-ish `line` value of a violation: absent/null, an integer, or a
string (the shapes the scripts actually branch on with `isinstance`). -/
inductive LineVal where
  | null : LineVal
  | int : Int → LineVal
  | str : String → LineVal
deriving DecidableEq

/-- Python truthiness of a `line` value (`None`, `0` and the empty string are
falsy). -/
def LineVal.truthy : LineVal → Bool
  | .null => false
  | .int i => decide (i ≠ 0)
  | .str s => decide (s ≠ "")

/-- Python `isinstance(line, (int, str))`. -/
def LineVal.isIntOrStr : LineVal → Bool
  | .null => false
  | .int _ => true
  | .str _ => true

/-- Python `str(line)`. -/
def LineVal.pyStr : LineVal → String
  | .null => "None"
  | .int i => toString i
  | .str s => s

/-- Python `int(line)` on the values reachable behind the `isdigit()` guard. -/
def LineVal.pyInt : LineVal → Int
  | .null => 0
  | .int i => i
  | .str s => (digitsToNat s.data : Int)

/-- Python `str.isdigit()`: non-empty and all decimal digits. -/
def isDigitStr (s : String) : Bool := decide (s.data ≠ []) && s.data.all Char.isDigit

/-- One reported rule infraction as the scripts read it from JSON; an absent
key is `none`. The fields `source` and `language` model the `'_source'` and
`'_language'` provenance tags added during aggregation. -/
structure Violation where
  severity : Option String := none
  rule_id : Option String := none
  rule_name : Option String := none
  file : Option String := none
  line : LineVal := .null
  line_end : Option Int := none
  code_snippet : Option String := none
  explanation : Option String := none
  suggestion : Option String := none
  confidence : Option ℚ := none
  source : Option String := none
  language : Option String := none
deriving DecidableEq

/-- The `metrics` sub-record of an analysis result. -/
structure Metrics where
  files_analyzed : Option Int := none
  total_lines : Option Int := none
  violation_density : Option ℚ := none
deriving DecidableEq

/-- The `metadata` sub-record; `language` is doubly optional: the outer level
models key absence, the inner a JSON `null` value. -/
structure Metadata where
  language : Option (Option String) := none
deriving DecidableEq

/-- Canonical output of one analysis call, as manipulated by the scripts.
Absent JSON keys are `none`; list-valued keys are only ever read with a `[]`
default, so the lists are stored directly. `source_file` models the
`'_source_file'` key added by `load_all_results`. -/
structure AnalysisResult where
  summary : Option String := none
  violations : List Violation := []
  passed_checks : List String := []
  recommendations : List String := []
  metrics : Option Metrics := none
  error : Option String := none
  raw_response : Option String := none
  source_file : Option String := none
  metadata : Option Metadata := none
deriving DecidableEq

/-! De-duplication primitives. -/

/-- Key-based first-occurrence de-duplication with an explicit seen-set,
modelling the `seen = set(); if key not in seen: seen.add(key); keep` loop. -/
def dedupByKey {α β : Type} [DecidableEq β] (key : α → β) : List α → List β → List α
  | [], _ => []
  | x :: rest, seen =>
    if key x ∈ seen then dedupByKey key rest seen
    else x :: dedupByKey key rest (key x :: seen)

/-- The seen-set accumulated by `dedupByKey` after processing a list. -/
def seenAfter {α β : Type} [DecidableEq β] (key : α → β) : List α → List β → List β
  | [], seen => seen
  | x :: rest, seen =>
    if key x ∈ seen then seenAfter key rest seen
    else seenAfter key rest (key x :: seen)

/-- The identity triple `(file, line, rule_id)` used for de-duplication in
`merge_chunk_results` (analyze_code.py line 265). -/
def vkey (v : Violation) : Option String × LineVal × Option String :=
  (v.file, v.line, v.rule_id)

/-- The de-duplication pass of `merge_chunk_results` (analyze_code.py lines
261-268): the first occurrence of each `(file, line, rule_id)` key wins. -/
def dedupViolations (l : List Violation) : List Violation := dedupByKey vkey l []

/-- First-occurrence de-duplication; stands in for Python's `list(set(xs))`,
whose iteration order is unspecified — only membership is meaningful. -/
def dedupFirst {α : Type} [DecidableEq α] (l : List α) : List α := dedupByKey id l []

/-! `merge_chunk_results` from analyze_code.py. -/

/-- Accumulator of the merging loop in `merge_chunk_results`. -/
structure MergeAcc where
  summaries : List String
  violations : List Violation
  passed_checks : List String
  recommendations : List String
  files_analyzed : Int
  total_lines : Int
deriving DecidableEq

def emptyMetrics : Metrics := {}

/-- One iteration of the loop in `merge_chunk_results` (analyze_code.py lines
248-259): a result carrying an `error` key is skipped entirely; the
`passed_checks` set is modelled by concatenation, de-duplicated at the end. -/
def mergeStep (acc : MergeAcc) (result : AnalysisResult) : MergeAcc :=
  if result.error.isSome then acc
  else
    { summaries := acc.summaries ++ [result.summary.getD ""],
      violations := acc.violations ++ result.violations,
      passed_checks := acc.passed_checks ++ result.passed_checks,
      recommendations := acc.recommendations ++ result.recommendations,
      files_analyzed :=
        acc.files_analyzed + ((result.metrics.getD emptyMetrics).files_analyzed.getD 0),
      total_lines :=
        acc.total_lines + ((result.metrics.getD emptyMetrics).total_lines.getD 0) }

/-- `merge_chunk_results(results)` from analyze_code.py lines 231-279: merge
per-chunk results, skipping those with `error` set; de-duplicate violations by
`(file, line, rule_id)`; join summaries with spaces (falling back to
`'Analysis complete.'`); recompute the violation density. Python's unordered
sets (`passed_checks`, `list(set(recommendations))`) are modelled as
first-occurrence de-duplicated lists (only membership is meaningful). -/
def merge_chunk_results (results : List AnalysisResult) : AnalysisResult :=
  let acc := results.foldl mergeStep ⟨[], [], [], [], 0, 0⟩
  let unique_violations := dedupViolations acc.violations
  { summary := some (if acc.summaries = [] then "Analysis complete."
      else String.intercalate " " acc.summaries),
    violations := unique_violations,
    passed_checks := dedupFirst acc.passed_checks,
    recommendations := dedupFirst acc.recommendations,
    metrics := some
      { files_analyzed := some acc.files_analyzed,
        total_lines := some acc.total_lines,
        violation_density := some (if 0 < acc.total_lines then
          ((unique_violations.length : ℚ) / (acc.total_lines : ℚ)) else 0) },
    error := none,
    raw_response := none,
    source_file := none,
    metadata := none }

/-! The response-normalization tail of `analyze_with_llm` from analyze_code.py. -/

/-- The fence-extraction loop of `analyze_with_llm` (analyze_code.py lines
208-219): collect the lines strictly between the first fence line and the
next fence line, or to the end when no closing fence exists. -/
def fenceLoop : List String → Bool → List String
  | [], _ => []
  | line :: rest, inJson =>
    if pyStartsWith "```" line && !inJson then fenceLoop rest true
    else if pyStartsWith "```" line && inJson then []
    else if inJson then line :: fenceLoop rest inJson
    else fenceLoop rest inJson

/-- The fence-stripping preamble of the response parser: strip surrounding
whitespace; when the text starts with a code fence, keep only the fenced
content, re-joined with newlines. -/
def stripFences (response : String) : String :=
  let response_text := pyStripStr response
  if pyStartsWith "```" response_text then
    String.intercalate "\n" (fenceLoop (pySplit "\n" response_text) false)
  else response_text

/-- The response-normalization tail of `analyze_with_llm` (analyze_code.py
lines 202-228). `json.loads` is an external library call, modelled as an
abstract parameter `parse` that returns either a canonical result or a
failure message (the `JSONDecodeError` text). On failure the function returns
the error record built in the `except` branch — it always returns a result,
never propagates a failure. -/
def parse_llm_response (parse : String → Except String AnalysisResult)
    (response : String) : AnalysisResult :=
  match parse (stripFences response) with
  | .ok r => r
  | .error e =>
    { summary := some "Analysis failed due to response parsing error",
      violations := [],
      passed_checks := [],
      recommendations := [],
      metrics := none,
      error := some ("Failed to parse LLM response as JSON: " ++ e),
      raw_response := some (response.take 500),
      source_file := none,
      metadata := none }

/-! Aggregation and formatting from format_review.py. -/

/-- The fixed severity ranking table `SEVERITY_ORDER` of format_review.py. -/
def SEVERITY_ORDER : List String := ["critical", "high", "medium", "low", "info"]

/-- Python `list.index` (first index; the scripts only call it behind a
membership guard). -/
def listIndex : List String → String → Nat
  | [], _ => 0
  | s :: rest, x => if s = x then 0 else listIndex rest x + 1

/-- Python `str.lower()`, modelled on the character list (ASCII case folding;
the severity strings the scripts compare are ASCII). Defined via `String.mk`
so that the kernel can evaluate it. -/
def pyLower (s : String) : String := String.mk (s.data.map Char.toLower)

/-- The lowered severity of a violation with the `'medium'` default applied:
`v.get('severity', 'medium').lower()`. -/
def sevLower (v : Violation) : String := pyLower (v.severity.getD "medium")

/-- `severity_key` from `aggregate_violations` (format_review.py lines 64-66):
the index in `SEVERITY_ORDER`, or 99 for severities outside the table. -/
def severity_key (v : Violation) : Nat :=
  let sev := sevLower v
  if sev ∈ SEVERITY_ORDER then listIndex SEVERITY_ORDER sev else 99

/-- The comparison modelling Python's stable `sorted(..., key=severity_key)`. -/
def sortLE (a b : Violation) : Prop := severity_key a ≤ severity_key b

instance : DecidableRel sortLE := fun _ _ => Nat.decLe _ _

/-- The `'_language'` provenance value for one result:
`result.get('metadata', {}).get('language', 'common')` (a `language` key that
is present with value `null` yields `None`, not `'common'`). -/
def resultLanguageTag (r : AnalysisResult) : Option String :=
  match r.metadata with
  | none => some "common"
  | some m =>
    match m.language with
    | none => some "common"
    | some v => v

/-- The provenance-tagging step of `aggregate_violations` (format_review.py
lines 54-61). -/
def resultViolationsTagged (r : AnalysisResult) : List Violation :=
  let src := r.source_file.getD "unknown"
  let lang := resultLanguageTag r
  r.violations.map (fun v => { v with source := some src, language := lang })

/-- All violations of all results, tagged with provenance, in input order. -/
def all_violations (results : List AnalysisResult) : List Violation :=
  (results.map resultViolationsTagged).flatten

/-- `aggregate_violations(results)` from format_review.py lines 50-68: tag,
concatenate, and stably sort by `severity_key`. Python's `sorted` is a stable
sort; any stable sort computes the same list, and it is modelled here by
insertion sort, which is stable. -/
def aggregate_violations (results : List AnalysisResult) : List Violation :=
  (all_violations results).insertionSort sortLE

/-- `get_max_severity(violations)` from format_review.py lines 71-80. -/
def get_max_severity (violations : List Violation) : String :=
  if violations = [] then "none"
  else
    let severities := violations.map sevLower
    match SEVERITY_ORDER.find? (fun s => decide (s ∈ severities)) with
    | some s => s
    | none => "medium"

/-- The count recorded under key `s` in `summary['by_severity']` by `main`
(format_review.py lines 315-317); the raw severity value with a `'medium'`
default is used there (without lowering). -/
def by_severity_count (violations : List Violation) (s : String) : Nat :=
  (violations.filter (fun v => v.severity.getD "medium" == s)).length

/-- `SEVERITY_EMOJI.get` from format_review.py; the string literals reproduce
the file's exact (mojibake) characters. -/
def SEVERITY_EMOJI (s : String) : Option String :=
  if s = "critical" then some "üö®"
  else if s = "high" then some "\u201a\u00f9\u00e5"
  else if s = "medium" then some "\u201a\u00f6\u2020\u00d4\u220f\u00e8"
  else if s = "low" then some "üí°"
  else if s = "info" then some "\u201a\u00d1\u03c0\u00d4\u220f\u00e8"
  else none

/-- One machine-readable inline comment as built by
`extract_inline_comments`. -/
structure InlineComment where
  path : String
  line : Option Int
  body : String
  severity : String
deriving DecidableEq

/-- Python truthiness of an optional string (`None` and `''` are falsy). -/
def optStrTruthy : Option String → Bool
  | none => false
  | some s => decide (s ≠ "")

/-- The record built for one violation that passed the early-`continue` guard
of `extract_inline_comments` (format_review.py lines 239-254); its `line` is
`None` unless `isinstance(line, (int, str)) and str(line).isdigit()`. -/
def inlineEntry (v : Violation) : InlineComment :=
  let severity := sevLower v
  let emoji := (SEVERITY_EMOJI severity).getD "\u201a\u00f6\u2020\u00d4\u220f\u00e8"
  let rule_id := v.rule_id.getD ""
  let explanation := v.explanation.getD "Issue detected"
  let suggestion := v.suggestion.getD ""
  let body := emoji ++ " **" ++ rule_id ++ "**: " ++ explanation
  let body := if suggestion ≠ "" then
      body ++ "\n\nüí° " ++ suggestion
    else body
  { path := v.file.getD "",
    line := if v.line.isIntOrStr && isDigitStr v.line.pyStr then some v.line.pyInt else none,
    body := body,
    severity := severity }

/-- The accumulation loop of `extract_inline_comments` (format_review.py
lines 232-254): skip (`continue`) violations with a falsy file, a falsy line,
or line `'?'`; append the comment record otherwise. Following it,
`extract_inline_comments` drops the records whose `line` is still `None`
(format_review.py line 257). -/
def buildInline : List Violation → List InlineComment
  | [] => []
  | v :: rest =>
    if !optStrTruthy v.file || !v.line.truthy || v.line == LineVal.str "?" then
      buildInline rest
    else inlineEntry v :: buildInline rest

def extract_inline_comments (violations : List Violation) : List InlineComment :=
  (buildInline violations).filter (fun c => c.line.isSome)

/-- The truncation applied in `main` (format_review.py line 311):
`summary['inline_comments'] = inline_comments[:20]`. -/
def summary_inline_comments (violations : List Violation) : List InlineComment :=
  (extract_inline_comments violations).take 20

/-- Characterization used by the amended C8: a violation yields an inline
comment exactly when its file is truthy and its line is truthy, not the
string `'?'`, an int or str, and `str(line)` consists of decimal digits —
i.e. the line is a positive integer or a digit string (possibly zero). -/
def qualifies (v : Violation) : Bool :=
  optStrTruthy v.file && v.line.truthy && !(v.line == LineVal.str "?")
    && v.line.isIntOrStr && isDigitStr v.line.pyStr

/-- One-pass form of `extract_inline_comments`, for the amended C8. -/
def inlineOf (v : Violation) : Option InlineComment :=
  if qualifies v then some (inlineEntry v) else none


/-! `parse_diff_sections` from filter_diff.py. -/

/-- The literal `'diff --git a/'` opening of the header pattern
`^diff --git a/(.+?) b/(.+)$`. -/
def headerMarker : List Char := ("diff --git a/").data

/-- Scan for the earliest `' b/'` occurrence (at offset ≥ 1 past the start of
the lazy group) that leaves a non-empty remainder; returns that remainder.
This realizes the lazy `(.+?) b/(.+)$` part of the header regex. -/
def scanB : List Char → Option (List Char)
  | [] => none
  | c :: rest =>
    if (' ' :: 'b' :: '/' :: []).isPrefixOf (c :: rest) ∧ rest.drop 2 ≠ [] then
      some (rest.drop 2)
    else scanB rest

/-- `re.match(r'^diff --git a/(.+?) b/(.+)$', line)`, returning the second
group (the post-change `b/` path) when the pattern matches. -/
def headerBPath (line : String) : Option String :=
  if headerMarker.isPrefixOf line.data then
    match line.data.drop 13 with
    | [] => none
    | _ :: rest => (scanB rest).map (fun g2 => String.mk g2)
  else none

/-- Insertion into a Python dict viewed as an ordered association list:
assigning an existing key replaces its value in place (keeping the key's
original position); a new key is appended. -/
def insertOrdered : List (String × String) → String → String → List (String × String)
  | [], k, v => [(k, v)]
  | (k0, v0) :: rest, k, v =>
    if k0 = k then (k0, v) :: rest else (k0, v0) :: insertOrdered rest k v

/-- First-match lookup in an association list (the value a Python dict holds
for a key). -/
def lookupKV {α β : Type} [DecidableEq α] (k : α) : List (α × β) → Option β
  | [] => none
  | (k0, v) :: rest => if k = k0 then some v else lookupKV k rest

/-- The line loop of `parse_diff_sections` (filter_diff.py lines 24-41),
maintaining the current file, the current content lines, and the dict of
sections. -/
def pdsLoop : List String → Option String → List String → List (String × String) →
    List (String × String)
  | [], curFile, curContent, sections =>
    match curFile with
    | none => sections
    | some f => insertOrdered sections f (String.intercalate "\n" curContent)
  | line :: rest, curFile, curContent, sections =>
    match headerBPath line with
    | some bpath =>
      match curFile with
      | none => pdsLoop rest (some bpath) [line] sections
      | some f =>
        pdsLoop rest (some bpath) [line]
          (insertOrdered sections f (String.intercalate "\n" curContent))
    | none =>
      match curFile with
      | none => pdsLoop rest none curContent sections
      | some f => pdsLoop rest (some f) (curContent ++ [line]) sections

/-- `parse_diff_sections` applied to an already-split list of lines. -/
def parseSectionsLines (lines : List String) : List (String × String) :=
  pdsLoop lines none [] []

/-- `parse_diff_sections(diff_content)` from filter_diff.py lines 13-43: the
insertion-ordered dict mapping each file path to its section text. -/
def parse_diff_sections (diff_content : String) : List (String × String) :=
  parseSectionsLines (pySplit "\n" diff_content)

/-- Reference companion of `pdsLoop` that collects every raw section, in
header order, with duplicate paths kept (a plain list instead of a dict). -/
def rawLoop : List String → Option String → List String → List (String × String) →
    List (String × String)
  | [], curFile, curContent, acc =>
    match curFile with
    | none => acc
    | some f => acc ++ [(f, String.intercalate "\n" curContent)]
  | line :: rest, curFile, curContent, acc =>
    match headerBPath line with
    | some bpath =>
      match curFile with
      | none => rawLoop rest (some bpath) [line] acc
      | some f =>
        rawLoop rest (some bpath) [line] (acc ++ [(f, String.intercalate "\n" curContent)])
    | none =>
      match curFile with
      | none => rawLoop rest none curContent acc
      | some f => rawLoop rest (some f) (curContent ++ [line]) acc

/-- All raw sections of a line list, in header order, duplicates included. -/
def rawSections (lines : List String) : List (String × String) :=
  rawLoop lines none [] []


/-- Concrete input exercising the stable severity ordering: severities
supplied in order low, critical, high, critical, info. -/
def exC3Result : AnalysisResult :=
  { violations :=
      [{ severity := some "low", rule_id := some "r1" },
       { severity := some "critical", rule_id := some "r2" },
       { severity := some "high", rule_id := some "r3" },
       { severity := some "critical", rule_id := some "r4" },
       { severity := some "info", rule_id := some "r5" }] }

/-- Expected aggregated order for `exC3Result`: both criticals first in input
order, then high, low, info, each tagged with default provenance. -/
def exC3Expected : List Violation :=
  [{ severity := some "critical", rule_id := some "r2",
     source := some "unknown", language := some "common" },
   { severity := some "critical", rule_id := some "r4",
     source := some "unknown", language := some "common" },
   { severity := some "high", rule_id := some "r3",
     source := some "unknown", language := some "common" },
   { severity := some "low", rule_id := some "r1",
     source := some "unknown", language := some "common" },
   { severity := some "info", rule_id := some "r5",
     source := some "unknown", language := some "common" }]


/-- Folding raw `(path, content)` pairs into the ordered dict. -/
def insertAll (ds : List (String × String)) (raws : List (String × String)) :
    List (String × String) :=
  raws.foldl (fun m kv => insertOrdered m kv.1 kv.2) ds

theorem splitOnListAux_fuel (sep : List Char) :
    ∀ (f₁ f₂ : Nat) (l : List Char), l.length ≤ f₁ → l.length ≤ f₂ →
      splitOnListAux sep f₁ l = splitOnListAux sep f₂ l := by
  intro f₁
  induction f₁ with
  | zero =>
    intro f₂ l h₁ _
    have hl : l = [] := List.length_eq_zero.mp (Nat.le_zero.mp h₁)
    subst hl
    cases f₂ <;> rfl
  | succ f ih =>
    intro f₂ l h₁ h₂
    cases l with
    | nil => cases f₂ <;> rfl
    | cons c rest =>
      cases f₂ with
      | zero => simp at h₂
      | succ g =>
        simp only [splitOnListAux]
        by_cases hp : sep ≠ [] ∧ sep.isPrefixOf (c :: rest)
        · rw [if_pos hp, if_pos hp]
          have hsep : 1 ≤ sep.length := by
            cases sep with
            | nil => exact absurd rfl hp.1
            | cons s ss => simp
          have hd₁ : ((c :: rest).drop sep.length).length ≤ f := by
            simp only [List.length_drop, List.length_cons]
            simp only [List.length_cons] at h₁
            omega
          have hd₂ : ((c :: rest).drop sep.length).length ≤ g := by
            simp only [List.length_drop, List.length_cons]
            simp only [List.length_cons] at h₂
            omega
          rw [ih g _ hd₁ hd₂]
        · rw [if_neg hp, if_neg hp]
          have hr₁ : rest.length ≤ f := by simp only [List.length_cons] at h₁; omega
          have hr₂ : rest.length ≤ g := by simp only [List.length_cons] at h₂; omega
          rw [ih g rest hr₁ hr₂]

theorem prefixOf_append {sep l : List Char} (h : sep.isPrefixOf l) :
    sep ++ l.drop sep.length = l := by
  induction sep generalizing l with
  | nil => simp
  | cons s ss ih =>
    cases l with
    | nil => simp [List.isPrefixOf] at h
    | cons c cs =>
      simp only [List.isPrefixOf, Bool.and_eq_true, beq_iff_eq] at h
      obtain ⟨rfl, h2⟩ := h
      simp only [List.length_cons, List.drop_succ_cons, List.cons_append]
      exact congrArg (List.cons s) (ih h2)

theorem splitOnList_cons_pos {sep l : List Char} (hsep : sep ≠ []) (hp : sep.isPrefixOf l) :
    splitOnList sep l = [] :: splitOnList sep (l.drop sep.length) := by
  cases l with
  | nil =>
    cases sep with
    | nil => exact absurd rfl hsep
    | cons s ss => simp [List.isPrefixOf] at hp
  | cons c rest =>
    show splitOnListAux sep (rest.length + 1) (c :: rest) = _
    simp only [splitOnListAux]
    rw [if_pos ⟨hsep, hp⟩]
    have hsl : 1 ≤ sep.length := by
      cases sep with
      | nil => exact absurd rfl hsep
      | cons s ss => simp
    congr 1
    apply splitOnListAux_fuel
    · simp only [List.length_drop, List.length_cons]; omega
    · exact le_rfl

theorem splitOnList_cons_neg {sep : List Char} {c : Char} {rest : List Char}
    (hp : ¬ (sep ≠ [] ∧ sep.isPrefixOf (c :: rest))) :
    splitOnList sep (c :: rest) =
      match splitOnList sep rest with
      | [] => [[c]]
      | p :: ps => (c :: p) :: ps := by
  show splitOnListAux sep (rest.length + 1) (c :: rest) = _
  simp only [splitOnListAux]
  rw [if_neg hp]
  rfl

theorem splitOnListAux_ne_nil (sep : List Char) :
    ∀ (f : Nat) (l : List Char), splitOnListAux sep f l ≠ [] := by
  intro f
  induction f with
  | zero => intro l; cases l <;> simp [splitOnListAux]
  | succ f ih =>
    intro l
    cases l with
    | nil => simp [splitOnListAux]
    | cons c rest =>
      simp only [splitOnListAux]
      by_cases hp : sep ≠ [] ∧ sep.isPrefixOf (c :: rest)
      · rw [if_pos hp]; simp
      · rw [if_neg hp]
        cases h : splitOnListAux sep f rest with
        | nil => simp
        | cons p ps => simp

theorem splitOnList_ne_nil (sep l : List Char) : splitOnList sep l ≠ [] :=
  splitOnListAux_ne_nil sep l.length l

theorem joinSep_nil {α : Type} (sep : List α) : joinSep sep [] = [] := rfl

theorem joinSep_single {α : Type} (sep : List α) (p : List α) : joinSep sep [p] = p := rfl

theorem joinSep_cons₂ {α : Type} (sep p q : List α) (ps : List (List α)) :
    joinSep sep (p :: q :: ps) = p ++ sep ++ joinSep sep (q :: ps) := rfl

theorem joinSep_splitOnList_aux (sep : List Char) (hsep : sep ≠ []) :
    ∀ (n : Nat) (l : List Char), l.length ≤ n → joinSep sep (splitOnList sep l) = l := by
  intro n
  induction n with
  | zero =>
    intro l h
    have hl : l = [] := List.length_eq_zero.mp (Nat.le_zero.mp h)
    subst hl; rfl
  | succ n ih =>
    intro l h
    cases l with
    | nil => rfl
    | cons c rest =>
      by_cases hp : sep.isPrefixOf (c :: rest)
      · rw [splitOnList_cons_pos hsep hp]
        have hne := splitOnList_ne_nil sep ((c :: rest).drop sep.length)
        cases hq : splitOnList sep ((c :: rest).drop sep.length) with
        | nil => exact absurd hq hne
        | cons p ps =>
          rw [joinSep_cons₂]
          have hsl : 1 ≤ sep.length := by
            cases sep with
            | nil => exact absurd rfl hsep
            | cons s ss => simp
          have hdrop : ((c :: rest).drop sep.length).length ≤ n := by
            simp only [List.length_drop, List.length_cons]
            simp only [List.length_cons] at h
            omega
          have hj := ih ((c :: rest).drop sep.length) hdrop
          rw [hq] at hj
          simp only [List.nil_append]
          rw [hj]
          exact prefixOf_append hp
      · have hcond : ¬ (sep ≠ [] ∧ sep.isPrefixOf (c :: rest)) := fun hc => hp hc.2
        rw [splitOnList_cons_neg hcond]
        have hne := splitOnList_ne_nil sep rest
        cases hq : splitOnList sep rest with
        | nil => exact absurd hq hne
        | cons p ps =>
          have hrest : rest.length ≤ n := by simp only [List.length_cons] at h; omega
          have hj := ih rest hrest
          rw [hq] at hj
          cases ps with
          | nil =>
            simp only [joinSep_single] at hj ⊢
            rw [hj]
          | cons q qs =>
            rw [joinSep_cons₂] at hj ⊢
            simp only [List.cons_append]
            rw [hj]

theorem joinSep_splitOnList (sep : List Char) (hsep : sep ≠ []) (l : List Char) :
    joinSep sep (splitOnList sep l) = l :=
  joinSep_splitOnList_aux sep hsep l.length l le_rfl

theorem join_map_sep (sep : Str) : ∀ (p : Str) (ps : List Str),
    p ++ (ps.map (fun s => sep ++ s)).flatten = joinSep sep (p :: ps) := by
  intro p ps
  induction ps generalizing p with
  | nil => simp [joinSep_single]
  | cons q qs ih =>
    simp only [List.map_cons, List.flatten_cons]
    rw [joinSep_cons₂, ← ih q]
    simp [List.append_assoc]

theorem reassemble_flatten {d : Str}
    (h : firstPiece d = [] ∨ pyStrip (firstPiece d) ≠ []) :
    (reassemble (splitOnList sepDG d)).flatten = d := by
  have hne := splitOnList_ne_nil sepDG d
  cases hq : splitOnList sepDG d with
  | nil => exact absurd hq hne
  | cons p ps =>
    have hfp : firstPiece d = p := by simp [firstPiece, hq]
    have hjd : joinSep sepDG (p :: ps) = d := by
      have := joinSep_splitOnList sepDG (by decide) d
      rw [hq] at this
      exact this
    simp only [reassemble]
    by_cases hb : pyStrip p = []
    · have hp0 : p = [] := by
        cases h with
        | inl h1 => rw [hfp] at h1; exact h1
        | inr h2 => rw [hfp] at h2; exact absurd hb h2
      subst hp0
      rw [if_pos hb]
      simp only [List.nil_append]
      have hm := join_map_sep sepDG [] ps
      simp only [List.nil_append] at hm
      rw [hm]
      exact hjd
    · rw [if_neg hb]
      have : ([p] ++ ps.map (fun s => sepDG ++ s)).flatten =
          p ++ (ps.map (fun s => sepDG ++ s)).flatten := by simp
      rw [this, join_map_sep]
      exact hjd

theorem packChunks_eq_map (maxChars : Nat) :
    ∀ (l cur : List Str) (size : Nat) (gs : List (List Str)),
      packChunks maxChars l cur size (gs.map (joinSep newlineStr)) =
        (packGroups maxChars l cur size gs).map (joinSep newlineStr) := by
  intro l
  induction l with
  | nil =>
    intro cur size gs
    simp only [packChunks, packGroups]
    by_cases hc : cur = []
    · rw [if_pos hc, if_pos hc]
    · rw [if_neg hc, if_neg hc, List.map_append, List.map_cons, List.map_nil]
  | cons s rest ih =>
    intro cur size gs
    simp only [packChunks, packGroups]
    by_cases hc : size + s.length > maxChars ∧ cur ≠ []
    · rw [if_pos hc, if_pos hc]
      have h := ih [s] s.length (gs ++ [cur])
      rw [List.map_append, List.map_cons, List.map_nil] at h
      exact h
    · rw [if_neg hc, if_neg hc]
      exact ih (cur ++ [s]) (size + s.length) gs

theorem chunk_diff_eq_map (d : Str) (t : Nat) :
    chunk_diff d t = (chunkGroups d t).map (joinSep newlineStr) := by
  simp only [chunk_diff, chunkGroups]
  by_cases h : d.length ≤ t * 4
  · rw [if_pos h, if_pos h]; rfl
  · rw [if_neg h, if_neg h]
    have h0 := packChunks_eq_map (t * 4) (reassemble (splitOnList sepDG d)) [] 0 []
    simpa using h0

theorem packGroups_flatten (maxChars : Nat) :
    ∀ (l cur : List Str) (size : Nat) (gs : List (List Str)),
      (packGroups maxChars l cur size gs).flatten = gs.flatten ++ cur ++ l := by
  intro l
  induction l with
  | nil =>
    intro cur size gs
    simp only [packGroups]
    by_cases hc : cur = []
    · rw [if_pos hc]; subst hc; simp
    · rw [if_neg hc]; simp
  | cons s rest ih =>
    intro cur size gs
    simp only [packGroups]
    by_cases hc : size + s.length > maxChars ∧ cur ≠ []
    · rw [if_pos hc, ih]; simp
    · rw [if_neg hc, ih]; simp

theorem chunkGroups_flatten (d : Str) (t : Nat)
    (h : firstPiece d = [] ∨ pyStrip (firstPiece d) ≠ []) :
    ((chunkGroups d t).map (fun g => g.flatten)).flatten = d := by
  have hjoin : ∀ (gss : List (List Str)),
      (gss.map (fun g => g.flatten)).flatten = gss.flatten.flatten := by
    intro gss
    induction gss with
    | nil => rfl
    | cons g gss ih => simp [ih]
  rw [hjoin]
  simp only [chunkGroups]
  by_cases hs : d.length ≤ t * 4
  · rw [if_pos hs]; simp
  · rw [if_neg hs, packGroups_flatten]
    simpa using reassemble_flatten h

/-- Total character count of a chunk's sections. -/
def sectionsLen (g : List Str) : Nat := (g.map List.length).sum

theorem packGroups_inv (maxChars : Nat) :
    ∀ (l cur : List Str) (size : Nat) (gs : List (List Str)),
      size = sectionsLen cur →
      (cur = [] ∨ cur.length = 1 ∨ sectionsLen cur ≤ maxChars) →
      (∀ g ∈ gs, g ≠ [] ∧ (g.length = 1 ∨ sectionsLen g ≤ maxChars)) →
      ∀ g ∈ packGroups maxChars l cur size gs,
        g ≠ [] ∧ (g.length = 1 ∨ sectionsLen g ≤ maxChars) := by
  intro l
  induction l with
  | nil =>
    intro cur size gs hsz hcur hgs g hg
    simp only [packGroups] at hg
    by_cases hc : cur = []
    · rw [if_pos hc] at hg; exact hgs g hg
    · rw [if_neg hc] at hg
      rcases List.mem_append.mp hg with h | h
      · exact hgs g h
      · have hgc : g = cur := by simpa using h
        subst hgc
        refine ⟨hc, ?_⟩
        rcases hcur with h1 | h2 | h3
        · exact absurd h1 hc
        · exact Or.inl h2
        · exact Or.inr h3
  | cons s rest ih =>
    intro cur size gs hsz hcur hgs g hg
    simp only [packGroups] at hg
    by_cases hc : size + s.length > maxChars ∧ cur ≠ []
    · rw [if_pos hc] at hg
      refine ih [s] s.length (gs ++ [cur]) (by simp [sectionsLen]) (Or.inr (Or.inl rfl)) ?_ g hg
      intro g' hg'
      rcases List.mem_append.mp hg' with h | h
      · exact hgs g' h
      · have hgc : g' = cur := by simpa using h
        subst hgc
        refine ⟨hc.2, ?_⟩
        rcases hcur with h1 | h2 | h3
        · exact absurd h1 hc.2
        · exact Or.inl h2
        · exact Or.inr h3
    · rw [if_neg hc] at hg
      have hlen : sectionsLen (cur ++ [s]) = sectionsLen cur + s.length := by
        simp [sectionsLen]
      refine ih (cur ++ [s]) (size + s.length) gs (by rw [hlen, hsz]) ?_ hgs g hg
      by_cases hcur0 : cur = []
      · subst hcur0
        exact Or.inr (Or.inl (by simp))
      · have hle : size + s.length ≤ maxChars := by
          by_contra hgt
          exact hc ⟨Nat.lt_of_not_le hgt, hcur0⟩
        refine Or.inr (Or.inr ?_)
        rw [hlen]
        omega

theorem chunkGroups_inv (d : Str) (t : Nat) :
    ∀ g ∈ chunkGroups d t, g ≠ [] ∧ (g.length = 1 ∨ sectionsLen g ≤ t * 4) := by
  intro g hg
  simp only [chunkGroups] at hg
  by_cases hs : d.length ≤ t * 4
  · rw [if_pos hs] at hg
    have hgd : g = [d] := by simpa using hg
    subst hgd
    exact ⟨by simp, Or.inl (by simp)⟩
  · rw [if_neg hs] at hg
    exact packGroups_inv (t * 4) _ [] 0 [] (by simp [sectionsLen]) (Or.inl rfl)
      (by simp) g hg

theorem joinSep_length (g : List Str) (hg : g ≠ []) :
    (joinSep newlineStr g).length = sectionsLen g + (g.length - 1) := by
  induction g with
  | nil => exact absurd rfl hg
  | cons p ps ih =>
    cases ps with
    | nil => simp [joinSep_single, sectionsLen]
    | cons q qs =>
      rw [joinSep_cons₂]
      have h := ih (by simp)
      simp only [List.length_append, newlineStr, List.length_cons, List.length_nil] at h ⊢
      simp only [sectionsLen, List.map_cons, List.sum_cons] at h ⊢
      omega

theorem joinSep_headI (g : List Str) (hg : g.length = 1) :
    joinSep newlineStr g = g.headI := by
  cases g with
  | nil => simp at hg
  | cons p ps =>
    cases ps with
    | nil => rfl
    | cons q qs => simp at hg

/-- C1 counterexample: for the 34-character diff `exDiff` and the positive
bound `max_tokens = 4` (16 characters), concatenating the raw text of all
chunks returned by `chunk_diff`, in order, does not reproduce the diff: the
first chunk joins its two sections with an extra newline character. -/
theorem chunk_reconstruction_cex :
    0 < 4 ∧ (chunk_diff exDiff 4).flatten ≠ exDiff :=
  ⟨by decide, by decide⟩

/-- C1 (amended): for every diff text and every token bound, each chunk
produced by `chunk_diff` is its group of sections joined with a newline
separator, and concatenating the sections of all chunks, in order, reproduces
the original diff text exactly, provided the text before the first
`'diff --git '` marker is absent or not whitespace-only (a whitespace-only
prelude is dropped). Chunk concatenation therefore reproduces the diff only up
to one inserted newline per boundary between two sections sharing a chunk. -/
theorem chunk_reconstruction_amended (d : Str) (t : Nat)
    (h : firstPiece d = [] ∨ pyStrip (firstPiece d) ≠ []) :
    chunk_diff d t = (chunkGroups d t).map (joinSep newlineStr)
    ∧ ((chunkGroups d t).map (fun g => g.flatten)).flatten = d :=
  ⟨chunk_diff_eq_map d t, chunkGroups_flatten d t h⟩

/-- C1 amended witness, at the concrete diff `exDiff` with bound 4. -/
theorem chunk_reconstruction_amended_witness :
    (firstPiece exDiff = [] ∨ pyStrip (firstPiece exDiff) ≠ [])
    ∧ chunk_diff exDiff 4 = (chunkGroups exDiff 4).map (joinSep newlineStr)
    ∧ ((chunkGroups exDiff 4).map (fun g => g.flatten)).flatten = exDiff :=
  ⟨Or.inr (by decide),
   (chunk_reconstruction_amended exDiff 4 (Or.inr (by decide))).1,
   (chunk_reconstruction_amended exDiff 4 (Or.inr (by decide))).2⟩

/-- C2 counterexample: with the positive bound `max_tokens = 4` (16
characters), `chunk_diff exDiff 4` produces a first chunk of 17 characters
consisting of two sections — it exceeds the bound without being a single
oversized section. -/
theorem chunk_size_bound_cex :
    0 < 4
    ∧ chunkGroups exDiff 4 =
        [[("abc").data, ("diff --git x\n").data], [("diff --git yyyyyyy").data]]
    ∧ chunk_diff exDiff 4 =
        [("abc\ndiff --git x\n").data, ("diff --git yyyyyyy").data]
    ∧ (("abc\ndiff --git x\n").data : Str).length = 17
    ∧ ¬ (("abc\ndiff --git x\n").data : Str).length ≤ 4 * 4 :=
  ⟨by decide, by decide, by decide, by decide, by decide⟩

/-- C2 (amended): every chunk equals its sections joined by single newlines; a
chunk with exactly one section is that section emitted whole (never split or
truncated, even when oversized); a chunk with two or more sections has
sections totalling at most `max_tokens * 4` characters, so its own length is
at most that bound plus one newline per internal section boundary. -/
theorem chunk_size_bound_amended (d : Str) (t : Nat) (g : List Str)
    (hg : g ∈ chunkGroups d t) :
    chunk_diff d t = (chunkGroups d t).map (joinSep newlineStr)
    ∧ g ≠ []
    ∧ (g.length = 1 → joinSep newlineStr g = g.headI)
    ∧ (1 < g.length →
        sectionsLen g ≤ t * 4
        ∧ (joinSep newlineStr g).length ≤ t * 4 + (g.length - 1)) := by
  obtain ⟨hne, hOr⟩ := chunkGroups_inv d t g hg
  refine ⟨chunk_diff_eq_map d t, hne, fun h1 => joinSep_headI g h1, fun hlt => ?_⟩
  have hsum : sectionsLen g ≤ t * 4 := by
    rcases hOr with h1 | h2
    · omega
    · exact h2
  refine ⟨hsum, ?_⟩
  rw [joinSep_length g hne]
  omega

/-- C2 amended witness, at the oversized single-section chunk of
`chunk_diff exDiff 4`. -/
theorem chunk_size_bound_amended_witness :
    [("diff --git yyyyyyy").data] ∈ chunkGroups exDiff 4
    ∧ ([("diff --git yyyyyyy").data] : List Str) ≠ []
    ∧ joinSep newlineStr [("diff --git yyyyyyy").data] = ("diff --git yyyyyyy").data := by
  have hmem : [("diff --git yyyyyyy").data] ∈ chunkGroups exDiff 4 := by decide
  have h := chunk_size_bound_amended exDiff 4 [("diff --git yyyyyyy").data] hmem
  exact ⟨hmem, h.2.1, h.2.2.1 (by decide)⟩

theorem dedupByKey_key_notMem {α β : Type} [DecidableEq β] (key : α → β) :
    ∀ (l : List α) (seen : List β) (x : α), x ∈ dedupByKey key l seen → key x ∉ seen := by
  intro l
  induction l with
  | nil => intro seen x hx; simp [dedupByKey] at hx
  | cons y rest ih =>
    intro seen x hx
    simp only [dedupByKey] at hx
    by_cases hy : key y ∈ seen
    · rw [if_pos hy] at hx
      exact ih seen x hx
    · rw [if_neg hy] at hx
      rcases List.mem_cons.mp hx with h | h
      · subst h; exact hy
      · intro hmem
        exact ih (key y :: seen) x h (List.mem_cons_of_mem _ hmem)

theorem dedupByKey_pairwise {α β : Type} [DecidableEq β] (key : α → β) :
    ∀ (l : List α) (seen : List β),
      (dedupByKey key l seen).Pairwise (fun a b => key a ≠ key b) := by
  intro l
  induction l with
  | nil => intro seen; simp [dedupByKey]
  | cons y rest ih =>
    intro seen
    simp only [dedupByKey]
    by_cases hy : key y ∈ seen
    · rw [if_pos hy]; exact ih seen
    · rw [if_neg hy]
      refine List.Pairwise.cons ?_ (ih (key y :: seen))
      intro b hb he
      have h := dedupByKey_key_notMem key rest (key y :: seen) b hb
      exact h (by rw [← he]; exact List.mem_cons_self _ _)

theorem dedupByKey_eq_nil {α β : Type} [DecidableEq β] (key : α → β) :
    ∀ (l : List α) (seen : List β), (∀ x ∈ l, key x ∈ seen) → dedupByKey key l seen = [] := by
  intro l
  induction l with
  | nil => intro seen _; rfl
  | cons y rest ih =>
    intro seen h
    simp only [dedupByKey]
    rw [if_pos (h y (List.mem_cons_self _ _))]
    exact ih seen (fun x hx => h x (List.mem_cons_of_mem _ hx))

theorem dedupByKey_cons_pos {α β : Type} [DecidableEq β] (key : α → β) (y : α)
    (l : List α) (seen : List β) (h : key y ∈ seen) :
    dedupByKey key (y :: l) seen = dedupByKey key l seen := by
  simp [dedupByKey, h]

theorem dedupByKey_cons_neg {α β : Type} [DecidableEq β] (key : α → β) (y : α)
    (l : List α) (seen : List β) (h : key y ∉ seen) :
    dedupByKey key (y :: l) seen = y :: dedupByKey key l (key y :: seen) := by
  simp [dedupByKey, h]

theorem seenAfter_cons_pos {α β : Type} [DecidableEq β] (key : α → β) (y : α)
    (l : List α) (seen : List β) (h : key y ∈ seen) :
    seenAfter key (y :: l) seen = seenAfter key l seen := by
  simp [seenAfter, h]

theorem seenAfter_cons_neg {α β : Type} [DecidableEq β] (key : α → β) (y : α)
    (l : List α) (seen : List β) (h : key y ∉ seen) :
    seenAfter key (y :: l) seen = seenAfter key l (key y :: seen) := by
  simp [seenAfter, h]

theorem dedupByKey_append {α β : Type} [DecidableEq β] (key : α → β) :
    ∀ (l₁ l₂ : List α) (seen : List β),
      dedupByKey key (l₁ ++ l₂) seen =
        dedupByKey key l₁ seen ++ dedupByKey key l₂ (seenAfter key l₁ seen) := by
  intro l₁
  induction l₁ with
  | nil => intro l₂ seen; rfl
  | cons y rest ih =>
    intro l₂ seen
    by_cases hy : key y ∈ seen
    · rw [List.cons_append, dedupByKey_cons_pos key y (rest ++ l₂) seen hy,
        dedupByKey_cons_pos key y rest seen hy, seenAfter_cons_pos key y rest seen hy]
      exact ih l₂ seen
    · rw [List.cons_append, dedupByKey_cons_neg key y (rest ++ l₂) seen hy,
        dedupByKey_cons_neg key y rest seen hy, seenAfter_cons_neg key y rest seen hy,
        ih l₂ (key y :: seen), List.cons_append]

theorem mem_seenAfter {α β : Type} [DecidableEq β] (key : α → β) :
    ∀ (l : List α) (seen : List β) (k : β), k ∈ seen → k ∈ seenAfter key l seen := by
  intro l
  induction l with
  | nil => intro seen k hk; exact hk
  | cons y rest ih =>
    intro seen k hk
    by_cases hy : key y ∈ seen
    · rw [seenAfter_cons_pos key y rest seen hy]; exact ih seen k hk
    · rw [seenAfter_cons_neg key y rest seen hy]
      exact ih (key y :: seen) k (List.mem_cons_of_mem _ hk)

theorem key_mem_seenAfter {α β : Type} [DecidableEq β] (key : α → β) :
    ∀ (l : List α) (seen : List β) (x : α), x ∈ l → key x ∈ seenAfter key l seen := by
  intro l
  induction l with
  | nil => intro seen x hx; simp at hx
  | cons y rest ih =>
    intro seen x hx
    rcases List.mem_cons.mp hx with h | h
    · subst h
      by_cases hy : key x ∈ seen
      · rw [seenAfter_cons_pos key x rest seen hy]
        exact mem_seenAfter key rest seen _ hy
      · rw [seenAfter_cons_neg key x rest seen hy]
        exact mem_seenAfter key rest _ _ (List.mem_cons_self _ _)
    · by_cases hy : key y ∈ seen
      · rw [seenAfter_cons_pos key y rest seen hy]; exact ih seen x h
      · rw [seenAfter_cons_neg key y rest seen hy]; exact ih (key y :: seen) x h

theorem dedupByKey_fixed {α β : Type} [DecidableEq β] (key : α → β) :
    ∀ (l : List α) (seen : List β),
      l.Pairwise (fun a b => key a ≠ key b) → (∀ x ∈ l, key x ∉ seen) →
      dedupByKey key l seen = l := by
  intro l
  induction l with
  | nil => intro seen _ _; rfl
  | cons y rest ih =>
    intro seen hp hs
    rw [dedupByKey_cons_neg key y rest seen (hs y (List.mem_cons_self _ _))]
    congr 1
    refine ih (key y :: seen) (List.pairwise_cons.mp hp).2 ?_
    intro x hx hmem
    rcases List.mem_cons.mp hmem with h | h
    · exact (List.pairwise_cons.mp hp).1 x hx h.symm
    · exact hs x (List.mem_cons_of_mem _ hx) h

theorem dedupByKey_filter {α β : Type} [DecidableEq β] (key : α → β) :
    ∀ (l : List α) (seen : List β) (k : β),
      (dedupByKey key l seen).filter (fun x => decide (key x = k)) =
        if k ∈ seen then [] else (l.filter (fun x => decide (key x = k))).take 1 := by
  intro l
  induction l with
  | nil =>
    intro seen k
    by_cases hk : k ∈ seen
    · rw [if_pos hk]; rfl
    · rw [if_neg hk]; rfl
  | cons y rest ih =>
    intro seen k
    by_cases hy : key y ∈ seen
    · rw [dedupByKey_cons_pos key y rest seen hy, ih seen k]
      by_cases hk : k ∈ seen
      · rw [if_pos hk, if_pos hk]
      · rw [if_neg hk, if_neg hk]
        have hne : (decide (key y = k)) = false :=
          decide_eq_false_iff_not.mpr (fun h => hk (h ▸ hy))
        simp [List.filter_cons, hne]
    · rw [dedupByKey_cons_neg key y rest seen hy]
      by_cases hyk : key y = k
      · subst hyk
        rw [if_neg hy]
        have h0 := ih (key y :: seen) (key y)
        rw [if_pos (List.mem_cons_self _ _)] at h0
        simp [List.filter_cons, h0]
      · have hne : (decide (key y = k)) = false :=
          decide_eq_false_iff_not.mpr hyk
        by_cases hk : k ∈ seen
        · rw [if_pos hk]
          have h0 := ih (key y :: seen) k
          rw [if_pos (List.mem_cons_of_mem _ hk)] at h0
          simp [List.filter_cons, hne, h0]
        · rw [if_neg hk]
          have hknot : k ∉ key y :: seen := by
            intro hmem
            rcases List.mem_cons.mp hmem with h | h
            · exact hyk h.symm
            · exact hk h
          have h0 := ih (key y :: seen) k
          rw [if_neg hknot] at h0
          simp [List.filter_cons, hne, h0]

theorem dedupViolations_idem_append (x : List Violation) :
    dedupViolations (dedupViolations x ++ dedupViolations x) = dedupViolations x := by
  simp only [dedupViolations]
  rw [dedupByKey_append]
  rw [dedupByKey_fixed vkey _ [] (dedupByKey_pairwise vkey x [])
    (fun v _ h => List.not_mem_nil (vkey v) h)]
  rw [dedupByKey_eq_nil vkey _ _
    (fun v hv => key_mem_seenAfter vkey _ [] v hv)]
  simp

theorem foldl_mergeStep_violations :
    ∀ (rs : List AnalysisResult) (acc : MergeAcc),
      (rs.foldl mergeStep acc).violations =
        acc.violations ++
          ((rs.filter (fun r => r.error.isNone)).map (fun r => r.violations)).flatten := by
  intro rs
  induction rs with
  | nil => intro acc; simp
  | cons r rest ih =>
    intro acc
    simp only [List.foldl_cons]
    cases herr : r.error with
    | some e =>
      have hstep : mergeStep acc r = acc := by simp [mergeStep, herr]
      rw [hstep, ih]
      simp [List.filter_cons, herr]
    | none =>
      have hv : (mergeStep acc r).violations = acc.violations ++ r.violations := by
        simp [mergeStep, herr]
      rw [ih, hv]
      simp [List.filter_cons, herr, List.append_assoc]

theorem foldl_mergeStep_filter :
    ∀ (rs : List AnalysisResult) (acc : MergeAcc),
      rs.foldl mergeStep acc = (rs.filter (fun r => r.error.isNone)).foldl mergeStep acc := by
  intro rs
  induction rs with
  | nil => intro acc; rfl
  | cons r rest ih =>
    intro acc
    cases herr : r.error with
    | some e =>
      have hstep : mergeStep acc r = acc := by simp [mergeStep, herr]
      simp only [List.foldl_cons, List.filter_cons, herr, Option.isNone_some]
      rw [if_neg (by simp), hstep, ih]
    | none =>
      simp only [List.foldl_cons, List.filter_cons, herr, Option.isNone_none]
      rw [if_pos trivial, List.foldl_cons, ih]

theorem merge_violations_eq (rs : List AnalysisResult) :
    (merge_chunk_results rs).violations =
      dedupViolations
        (((rs.filter (fun r => r.error.isNone)).map (fun r => r.violations)).flatten) := by
  have h : (merge_chunk_results rs).violations =
      dedupViolations ((rs.foldl mergeStep ⟨[], [], [], [], 0, 0⟩).violations) := rfl
  rw [h, foldl_mergeStep_violations rs ⟨[], [], [], [], 0, 0⟩]
  rfl

/-- C4: for every sequence of results, `merge_chunk_results` de-duplicates the
concatenated violations of the non-error results by the identity triple
`(file, line, rule_id)`: for any key, the violations kept with that key are
exactly the first-seen one (regardless of other fields); every later
duplicate is silently dropped by the seen-set membership check. -/
theorem merge_dedup_spec (rs : List AnalysisResult) (l : List Violation)
    (k : Option String × LineVal × Option String) :
    (merge_chunk_results rs).violations =
      dedupViolations
        (((rs.filter (fun r => r.error.isNone)).map (fun r => r.violations)).flatten)
    ∧ (dedupViolations l).filter (fun v => decide (vkey v = k)) =
        (l.filter (fun v => decide (vkey v = k))).take 1 := by
  refine ⟨merge_violations_eq rs, ?_⟩
  have h := dedupByKey_filter vkey l [] k
  rw [if_neg (List.not_mem_nil k)] at h
  exact h

/-- C7: the de-duplicating merge is idempotent on violations — feeding the
result of `merge_chunk_results` (plus itself) through `merge_chunk_results`
again yields the same violation list (hence the same violation set) as
merging once. -/
theorem merge_idempotent_spec (rs : List AnalysisResult) :
    (merge_chunk_results [merge_chunk_results rs, merge_chunk_results rs]).violations =
      (merge_chunk_results rs).violations := by
  have hmv : (merge_chunk_results rs).violations =
      dedupViolations ((rs.foldl mergeStep ⟨[], [], [], [], 0, 0⟩).violations) := rfl
  have herr : (merge_chunk_results rs).error = none := rfl
  rw [merge_violations_eq [merge_chunk_results rs, merge_chunk_results rs]]
  rw [List.filter_cons, List.filter_cons]
  rw [if_pos (by rw [herr]; rfl), if_pos (by rw [herr]; rfl)]
  simp only [List.filter_nil, List.map_cons, List.map_nil, List.flatten_cons,
    List.flatten_nil, List.append_nil]
  rw [hmv]
  exact dedupViolations_idem_append _

/-- C6: `merge_chunk_results` excludes every result with `error` set from the
summary concatenation, the violation list, the passed-checks union, the
recommendations, and the files/lines sums — merging a list equals merging its
error-free sublist; and when every input result has `error` set, the merged
summary is exactly `"Analysis complete."` and the merged violations are
empty. -/
theorem merge_excludes_errors_spec (rs : List AnalysisResult) :
    merge_chunk_results rs = merge_chunk_results (rs.filter (fun r => r.error.isNone))
    ∧ ((∀ r ∈ rs, r.error ≠ none) →
        (merge_chunk_results rs).summary = some "Analysis complete."
        ∧ (merge_chunk_results rs).violations = []) := by
  have hmain : merge_chunk_results rs =
      merge_chunk_results (rs.filter (fun r => r.error.isNone)) := by
    unfold merge_chunk_results
    rw [foldl_mergeStep_filter rs]
  refine ⟨hmain, fun hall => ?_⟩
  have hfilter : rs.filter (fun r => r.error.isNone) = [] := by
    rw [List.filter_eq_nil_iff]
    intro r hr
    cases herr : r.error with
    | none => exact absurd herr (hall r hr)
    | some e => simp
  rw [hmain, hfilter]
  exact ⟨rfl, rfl⟩

/-- C6 witness: a single result carrying an error. -/
theorem merge_excludes_errors_spec_witness :
    merge_chunk_results [{ error := some "boom" }] =
      merge_chunk_results ([{ error := some "boom" }].filter (fun r => r.error.isNone))
    ∧ (merge_chunk_results [{ error := some "boom" }]).summary = some "Analysis complete."
    ∧ (merge_chunk_results [{ error := some "boom" }]).violations = [] := by
  have h := merge_excludes_errors_spec [{ error := some "boom" }]
  have h2 := h.2 (by intro r hr; simp at hr; rw [hr]; simp)
  exact ⟨h.1, h2.1, h2.2⟩

/-- C5: the response normalization of `analyze_with_llm` always returns an
analysis result for every raw response string (never an exception): when the
fence-stripped text fails to parse, the result carries a descriptive `error`
message, an empty violation list, the fixed failure summary, and the first
500 characters of the raw text; when parsing succeeds, the parsed record is
returned. -/
theorem normalize_error_spec (parse : String → Except String AnalysisResult)
    (response : String) :
    (∀ e, parse (stripFences response) = Except.error e →
      (parse_llm_response parse response).error =
          some ("Failed to parse LLM response as JSON: " ++ e)
      ∧ (parse_llm_response parse response).violations = []
      ∧ (parse_llm_response parse response).summary =
          some "Analysis failed due to response parsing error"
      ∧ (parse_llm_response parse response).raw_response = some (response.take 500))
    ∧ (∀ r, parse (stripFences response) = Except.ok r →
        parse_llm_response parse response = r) := by
  constructor
  · intro e he
    simp [parse_llm_response, he]
  · intro r hr
    simp only [parse_llm_response, hr]

/-- C5 witness: a parser that always fails, on a junk response. -/
theorem normalize_error_spec_witness :
    (parse_llm_response (fun _ => Except.error "boom") "not json").error =
        some ("Failed to parse LLM response as JSON: " ++ "boom")
    ∧ (parse_llm_response (fun _ => Except.error "boom") "not json").violations = []
    ∧ (parse_llm_response (fun _ => Except.error "boom") "not json").summary =
        some "Analysis failed due to response parsing error"
    ∧ (parse_llm_response (fun _ => Except.error "boom") "not json").raw_response =
        some (("not json" : String).take 500) := by
  have h := (normalize_error_spec (fun _ => Except.error "boom") "not json").1 "boom" rfl
  exact ⟨h.1, h.2.1, h.2.2.1, h.2.2.2⟩

theorem listIndex_lt_length :
    ∀ (l : List String) (x : String), x ∈ l → listIndex l x < l.length := by
  intro l
  induction l with
  | nil => intro x hx; simp at hx
  | cons s rest ih =>
    intro x hx
    simp only [listIndex]
    by_cases hs : s = x
    · rw [if_pos hs]; simp
    · rw [if_neg hs]
      have hx2 : x ∈ rest := by
        rcases List.mem_cons.mp hx with h | h
        · exact absurd h.symm hs
        · exact h
      simp only [List.length_cons]
      have := ih x hx2
      omega

theorem severity_key_lt_of_mem {v : Violation} (h : sevLower v ∈ SEVERITY_ORDER) :
    severity_key v < 5 := by
  simp only [severity_key]
  rw [if_pos h]
  have hlt := listIndex_lt_length SEVERITY_ORDER (sevLower v) h
  simpa [SEVERITY_ORDER] using hlt

theorem severity_key_of_notMem {v : Violation} (h : sevLower v ∉ SEVERITY_ORDER) :
    severity_key v = 99 := by
  simp only [severity_key]
  rw [if_neg h]

theorem insertionSort_sorted (all : List Violation) :
    (all.insertionSort sortLE).Pairwise sortLE := by
  haveI : IsTotal Violation sortLE := ⟨fun a b => Nat.le_total _ _⟩
  haveI : IsTrans Violation sortLE := ⟨fun a b c hab hbc => Nat.le_trans hab hbc⟩
  exact List.sorted_insertionSort sortLE all

theorem insertionSort_filter_key (all : List Violation) (k : Nat) :
    (all.insertionSort sortLE).filter (fun v => decide (severity_key v = k)) =
      all.filter (fun v => decide (severity_key v = k)) := by
  have hc : (all.filter (fun v => decide (severity_key v = k))).Pairwise sortLE := by
    apply List.pairwise_of_forall_mem_list
    intro a ha b hb
    have hak : severity_key a = k :=
      of_decide_eq_true (List.mem_filter.mp ha).2
    have hbk : severity_key b = k :=
      of_decide_eq_true (List.mem_filter.mp hb).2
    show severity_key a ≤ severity_key b
    omega
  have hsub : List.Sublist (all.filter (fun v => decide (severity_key v = k)))
      (all.insertionSort sortLE) :=
    List.sublist_insertionSort hc (List.filter_sublist all)
  have hfe : (all.filter (fun v => decide (severity_key v = k))).filter
      (fun v => decide (severity_key v = k)) =
      all.filter (fun v => decide (severity_key v = k)) :=
    List.filter_eq_self.mpr (fun a ha => (List.mem_filter.mp ha).2)
  have hsub2 : List.Sublist (all.filter (fun v => decide (severity_key v = k)))
      ((all.insertionSort sortLE).filter (fun v => decide (severity_key v = k))) := by
    have h := hsub.filter (fun v => decide (severity_key v = k))
    rw [hfe] at h
    exact h
  have hperm : List.Perm
      ((all.insertionSort sortLE).filter (fun v => decide (severity_key v = k)))
      (all.filter (fun v => decide (severity_key v = k))) :=
    (List.perm_insertionSort sortLE all).filter _
  exact (hsub2.eq_of_length hperm.length_eq.symm).symm

/-- C3: `aggregate_violations` stably sorts the tagged violations by severity
using the fixed total order critical > high > medium > low > info: the output
is a permutation of the tagged input violations, sorted by `severity_key`;
any violation whose severity is outside the table gets key 99 and sorts after
every in-table one; ties preserve relative input order (for every key,
filtering the output on that key returns exactly the input's subsequence with
that key, unchanged). In particular, severities supplied in order
`[low, critical, high, critical, info]` come out as
`[critical(1st), critical(2nd), high, low, info]`. -/
theorem aggregate_sorts_stably (results : List AnalysisResult) (k : Nat) :
    (aggregate_violations results).Perm (all_violations results)
    ∧ (aggregate_violations results).Pairwise sortLE
    ∧ (aggregate_violations results).filter (fun v => decide (severity_key v = k)) =
        (all_violations results).filter (fun v => decide (severity_key v = k))
    ∧ (∀ v w : Violation, sevLower v ∉ SEVERITY_ORDER → sevLower w ∈ SEVERITY_ORDER →
        severity_key w < severity_key v)
    ∧ aggregate_violations [exC3Result] = exC3Expected := by
  refine ⟨List.perm_insertionSort sortLE _, insertionSort_sorted _,
    insertionSort_filter_key _ k, ?_, by decide⟩
  intro v w hv hw
  rw [severity_key_of_notMem hv]
  have := severity_key_lt_of_mem hw
  omega

/-- C3 witness: an out-of-table severity sorts after an in-table one, and the
concrete five-violation example sorts as required. -/
theorem aggregate_sorts_stably_witness :
    (sevLower { severity := some "weird" } ∉ SEVERITY_ORDER)
    ∧ (sevLower { severity := some "critical" } ∈ SEVERITY_ORDER)
    ∧ severity_key { severity := some "critical" } <
        severity_key { severity := some "weird" }
    ∧ aggregate_violations [exC3Result] = exC3Expected := by
  have h := aggregate_sorts_stably [exC3Result] 0
  exact ⟨by decide, by decide, h.2.2.2.1 _ _ (by decide) (by decide), h.2.2.2.2⟩

theorem inlineEntry_line_isSome (v : Violation) :
    (inlineEntry v).line.isSome = (v.line.isIntOrStr && isDigitStr v.line.pyStr) := by
  cases hb : (v.line.isIntOrStr && isDigitStr v.line.pyStr) <;>
    simp [inlineEntry, hb]

theorem qualifies_eq (v : Violation) :
    qualifies v =
      (!(!optStrTruthy v.file || !v.line.truthy || v.line == LineVal.str "?")
        && (v.line.isIntOrStr && isDigitStr v.line.pyStr)) := by
  simp only [qualifies]
  cases h1 : optStrTruthy v.file <;> cases h2 : v.line.truthy <;>
    cases h3 : (v.line == LineVal.str "?") <;>
    cases h4 : v.line.isIntOrStr <;> cases h5 : isDigitStr v.line.pyStr <;> rfl

theorem extract_eq_filterMap (violations : List Violation) :
    extract_inline_comments violations = violations.filterMap inlineOf := by
  induction violations with
  | nil => rfl
  | cons v rest ih =>
    show (buildInline (v :: rest)).filter _ = _
    simp only [buildInline]
    rw [List.filterMap_cons]
    by_cases hg : (!optStrTruthy v.file || !v.line.truthy || v.line == LineVal.str "?") = true
    · rw [if_pos hg]
      have hq : inlineOf v = none := by
        simp [inlineOf, qualifies_eq, hg]
      rw [hq]
      exact ih
    · rw [if_neg hg]
      have hg2 : (!optStrTruthy v.file || !v.line.truthy || v.line == LineVal.str "?") = false :=
        eq_false_of_ne_true hg
      by_cases hd : (v.line.isIntOrStr && isDigitStr v.line.pyStr) = true
      · have hsome : ((fun c : InlineComment => c.line.isSome) (inlineEntry v)) = true := by
          show (inlineEntry v).line.isSome = true
          rw [inlineEntry_line_isSome]
          exact hd
        rw [List.filter_cons, if_pos hsome]
        have hq : inlineOf v = some (inlineEntry v) := by
          simp [inlineOf, qualifies_eq, hg2, hd]
        rw [hq]
        exact congrArg (List.cons (inlineEntry v)) ih
      · have hd2 : (v.line.isIntOrStr && isDigitStr v.line.pyStr) = false :=
          eq_false_of_ne_true hd
        have hsome : ¬ ((fun c : InlineComment => c.line.isSome) (inlineEntry v)) = true := by
          show ¬ (inlineEntry v).line.isSome = true
          rw [inlineEntry_line_isSome, hd2]
          simp
        rw [List.filter_cons, if_neg hsome]
        have hq : inlineOf v = none := by
          simp [inlineOf, qualifies_eq, hg2, hd2]
        rw [hq]
        exact ih

/-- C8 counterexample: a violation whose `line` is the digit string `"0"` is
kept as an inline comment with line number 0 by `extract_inline_comments`,
although 0 is not a positive integer — so the output does not contain exactly
the violations whose line parses as a positive integer. -/
theorem inline_comments_cex :
    extract_inline_comments
        [{ file := some "a.py", line := LineVal.str "0", rule_id := some "R1",
           explanation := some "bad" }] =
      [{ path := "a.py", line := some 0,
         body := "‚ö†Ô∏è **R1**: bad", severity := "medium" }]
    ∧ ¬ ((0 : Int) > 0) :=
  ⟨by decide, by decide⟩

/-- C8 (amended): `extract_inline_comments` keeps exactly the violations
accepted by `qualifies` — truthy (non-empty) file, truthy line that is not the
string `'?'`, with `str(line)` consisting of decimal digits, i.e. a positive
integer or a digit string which may denote zero — mapping each, in order, to
its comment record; the summary list is the first 20 of them. Of the example
violations `{file:"a.py", line:10}`, `{file:"b.py", line:"?"}` and
`{file:null, line:5}`, only the first qualifies. -/
theorem inline_comments_amended (violations : List Violation) :
    extract_inline_comments violations = violations.filterMap inlineOf
    ∧ summary_inline_comments violations = (extract_inline_comments violations).take 20
    ∧ extract_inline_comments
        [{ file := some "a.py", line := LineVal.int 10 },
         { file := some "b.py", line := LineVal.str "?" },
         { file := none, line := LineVal.int 5 }] =
      [{ path := "a.py", line := some 10,
         body := "‚ö†Ô∏è ****: Issue detected",
         severity := "medium" }] :=
  ⟨extract_eq_filterMap violations, rfl, by decide⟩

theorem sevLower_of_none {v : Violation} (h : v.severity = none) :
    sevLower v = "medium" := by
  unfold sevLower
  rw [h]
  decide

theorem sevLower_of_medium {v : Violation} (h : v.severity = some "medium") :
    sevLower v = "medium" := by
  unfold sevLower
  rw [h]
  decide

theorem severity_key_of_sevLower_medium {v : Violation} (h : sevLower v = "medium") :
    severity_key v = 2 := by
  simp only [severity_key, h]
  decide

/-- C10: a violation with no `severity` key is treated as `'medium'`
throughout: its sort key is 2, the key of an explicit `'medium'` (so it sorts
among the medium violations and strictly before any out-of-table severity,
not last); it is counted under `'medium'` in the by-severity counts; it can
be reported as the maximum severity; and a non-empty violation list none of
whose defaulted, lowered severities is in `SEVERITY_ORDER` reports maximum
severity `'medium'` rather than the `'none'` sentinel. -/
theorem missing_severity_spec (vs : List Violation) :
    (∀ v : Violation, v.severity = none → severity_key v = 2)
    ∧ (∀ w : Violation, w.severity = some "medium" → severity_key w = 2)
    ∧ (∀ v w : Violation, v.severity = none → sevLower w ∉ SEVERITY_ORDER →
        severity_key v < severity_key w)
    ∧ by_severity_count vs "medium" =
        (vs.filter (fun v => decide (v.severity = none ∨ v.severity = some "medium"))).length
    ∧ (vs ≠ [] → (∀ v ∈ vs, sevLower v ∉ SEVERITY_ORDER) →
        get_max_severity vs = "medium")
    ∧ (∀ v : Violation, v.severity = none → get_max_severity [v] = "medium") := by
  refine ⟨?_, ?_, ?_, ?_, ?_, ?_⟩
  · intro v hv
    exact severity_key_of_sevLower_medium (sevLower_of_none hv)
  · intro w hw
    exact severity_key_of_sevLower_medium (sevLower_of_medium hw)
  · intro v w hv hw
    rw [severity_key_of_sevLower_medium (sevLower_of_none hv),
      severity_key_of_notMem hw]
    omega
  · simp only [by_severity_count]
    apply congrArg List.length
    apply List.filter_congr
    intro v _
    cases hsv : v.severity with
    | none => simp [hsv]
    | some s =>
      by_cases hs : s = "medium" <;> simp [hsv, hs]
  · intro hne hall
    simp only [get_max_severity]
    rw [if_neg hne]
    have hfind : SEVERITY_ORDER.find? (fun s => decide (s ∈ vs.map sevLower)) = none := by
      rw [List.find?_eq_none]
      intro s hs hdec
      have hmem : s ∈ vs.map sevLower := of_decide_eq_true hdec
      obtain ⟨v, hv, hveq⟩ := List.mem_map.mp hmem
      exact hall v hv (hveq ▸ hs)
    rw [hfind]
  · intro v hv
    have hs := sevLower_of_none hv
    simp only [get_max_severity, List.map_cons, List.map_nil, hs]
    rw [if_neg (by simp)]
    decide

/-- C10 witness: a missing severity gets key 2, sorts before an out-of-table
severity, and is reported as maximum severity `'medium'`; a list with only an
out-of-table severity also reports `'medium'`. -/
theorem missing_severity_spec_witness :
    severity_key { severity := none } = 2
    ∧ severity_key ({ severity := none } : Violation) <
        severity_key { severity := some "weird" }
    ∧ get_max_severity [{ severity := some "weird" }] = "medium"
    ∧ get_max_severity [({ severity := none } : Violation)] = "medium" := by
  have h := missing_severity_spec [{ severity := some "weird" }]
  refine ⟨h.1 _ rfl, h.2.2.1 _ _ rfl (by decide), ?_, h.2.2.2.2.2 _ rfl⟩
  refine h.2.2.2.2.1 (by simp) ?_
  intro v hv
  simp only [List.mem_singleton] at hv
  subst hv
  decide

theorem insertOrdered_map_fst_mem (m : List (String × String)) (k v : String)
    (h : k ∈ m.map Prod.fst) :
    (insertOrdered m k v).map Prod.fst = m.map Prod.fst := by
  induction m with
  | nil => simp at h
  | cons kv0 rest ih =>
    obtain ⟨k0, v0⟩ := kv0
    simp only [insertOrdered]
    by_cases hk : k0 = k
    · rw [if_pos hk]; simp
    · rw [if_neg hk]
      simp only [List.map_cons]
      have h2 : k ∈ rest.map Prod.fst := by
        simp only [List.map_cons, List.mem_cons] at h
        rcases h with h | h
        · exact absurd h.symm hk
        · exact h
      rw [ih h2]

theorem insertOrdered_map_fst_notMem (m : List (String × String)) (k v : String)
    (h : k ∉ m.map Prod.fst) :
    (insertOrdered m k v).map Prod.fst = m.map Prod.fst ++ [k] := by
  induction m with
  | nil => rfl
  | cons kv0 rest ih =>
    obtain ⟨k0, v0⟩ := kv0
    simp only [insertOrdered]
    by_cases hk : k0 = k
    · exact absurd (by simp [hk]) h
    · rw [if_neg hk]
      simp only [List.map_cons, List.cons_append]
      have h2 : k ∉ rest.map Prod.fst := by
        intro hmem
        exact h (by simp [hmem])
      rw [ih h2]

theorem lookupKV_insertOrdered (m : List (String × String)) (k v k' : String) :
    lookupKV k' (insertOrdered m k v) =
      if k' = k then some v else lookupKV k' m := by
  induction m with
  | nil => rfl
  | cons kv0 rest ih =>
    obtain ⟨k0, v0⟩ := kv0
    simp only [insertOrdered]
    by_cases hk : k0 = k
    · subst hk
      simp only [lookupKV]
      by_cases hk' : k' = k0 <;> simp [hk']
    · rw [if_neg hk]
      simp only [lookupKV]
      by_cases hk' : k' = k0
      · have hne : ¬ k' = k := by
          intro h
          apply hk
          rw [← hk', h]
        rw [if_pos hk', if_neg hne, if_pos hk']
      · rw [if_neg hk', ih, if_neg hk']

theorem lookupKV_append {β : Type} (k : String) (l₁ l₂ : List (String × β)) :
    lookupKV k (l₁ ++ l₂) =
      match lookupKV k l₁ with
      | some v => some v
      | none => lookupKV k l₂ := by
  induction l₁ with
  | nil => rfl
  | cons kv0 rest ih =>
    obtain ⟨k0, v0⟩ := kv0
    show lookupKV k ((k0, v0) :: (rest ++ l₂)) = _
    simp only [lookupKV]
    by_cases hk : k = k0
    · rw [if_pos hk, if_pos hk]
    · rw [if_neg hk, if_neg hk, ih]

theorem dedupByKey_congr_seen {α β : Type} [DecidableEq β] (key : α → β) :
    ∀ (l : List α) (s₁ s₂ : List β), (∀ x, x ∈ s₁ ↔ x ∈ s₂) →
      dedupByKey key l s₁ = dedupByKey key l s₂ := by
  intro l
  induction l with
  | nil => intro s₁ s₂ _; rfl
  | cons y rest ih =>
    intro s₁ s₂ hequiv
    by_cases hy : key y ∈ s₁
    · rw [dedupByKey_cons_pos key y rest s₁ hy,
        dedupByKey_cons_pos key y rest s₂ ((hequiv _).mp hy)]
      exact ih s₁ s₂ hequiv
    · have hy2 : key y ∉ s₂ := fun h => hy ((hequiv _).mpr h)
      rw [dedupByKey_cons_neg key y rest s₁ hy, dedupByKey_cons_neg key y rest s₂ hy2]
      refine congrArg (List.cons y) (ih _ _ ?_)
      intro x
      simp only [List.mem_cons]
      constructor
      · rintro (h | h)
        · exact Or.inl h
        · exact Or.inr ((hequiv _).mp h)
      · rintro (h | h)
        · exact Or.inl h
        · exact Or.inr ((hequiv _).mpr h)

theorem insertAll_map_fst :
    ∀ (raws m : List (String × String)),
      (insertAll m raws).map Prod.fst =
        m.map Prod.fst ++ dedupByKey id (raws.map Prod.fst) (m.map Prod.fst) := by
  intro raws
  induction raws with
  | nil => intro m; simp [insertAll, dedupByKey]
  | cons kv0 rest ih =>
    intro m
    obtain ⟨k0, v0⟩ := kv0
    show (insertAll (insertOrdered m k0 v0) rest).map Prod.fst = _
    rw [ih (insertOrdered m k0 v0)]
    simp only [List.map_cons]
    by_cases hk : k0 ∈ m.map Prod.fst
    · rw [insertOrdered_map_fst_mem m k0 v0 hk,
        dedupByKey_cons_pos id k0 (rest.map Prod.fst) (m.map Prod.fst) hk]
    · rw [insertOrdered_map_fst_notMem m k0 v0 hk,
        dedupByKey_cons_neg id k0 (rest.map Prod.fst) (m.map Prod.fst) hk]
      rw [dedupByKey_congr_seen id (rest.map Prod.fst)
        (m.map Prod.fst ++ [k0]) (id k0 :: m.map Prod.fst) (by intro x; simp [or_comm])]
      simp

theorem lookupKV_insertAll :
    ∀ (raws m : List (String × String)) (k : String),
      lookupKV k (insertAll m raws) =
        match lookupKV k raws.reverse with
        | some v => some v
        | none => lookupKV k m := by
  intro raws
  induction raws with
  | nil => intro m k; rfl
  | cons kv0 rest ih =>
    intro m k
    obtain ⟨k0, v0⟩ := kv0
    show lookupKV k (insertAll (insertOrdered m k0 v0) rest) = _
    rw [ih (insertOrdered m k0 v0) k]
    simp only [List.reverse_cons]
    rw [lookupKV_append k rest.reverse [(k0, v0)]]
    cases hA : lookupKV k rest.reverse with
    | some v => rfl
    | none =>
      simp only [lookupKV]
      rw [lookupKV_insertOrdered]
      by_cases hk : k = k0 <;> simp [hk]

theorem rawLoop_append :
    ∀ (ls : List String) (cf : Option String) (cc : List String)
      (acc : List (String × String)),
      rawLoop ls cf cc acc = acc ++ rawLoop ls cf cc [] := by
  intro ls
  induction ls with
  | nil =>
    intro cf cc acc
    cases cf with
    | none => simp [rawLoop]
    | some f => simp [rawLoop]
  | cons line rest ih =>
    intro cf cc acc
    cases hhl : headerBPath line with
    | some b =>
      cases cf with
      | none =>
        simp only [rawLoop, hhl]
        exact ih (some b) [line] acc
      | some f =>
        simp only [rawLoop, hhl]
        rw [ih (some b) [line] (acc ++ [(f, String.intercalate "\n" cc)]),
          ih (some b) [line] ([] ++ [(f, String.intercalate "\n" cc)])]
        simp [List.append_assoc]
    | none =>
      cases cf with
      | none =>
        simp only [rawLoop, hhl]
        exact ih none cc acc
      | some f =>
        simp only [rawLoop, hhl]
        exact ih (some f) (cc ++ [line]) acc

theorem pdsLoop_insertAll :
    ∀ (ls : List String) (cf : Option String) (cc : List String)
      (ds : List (String × String)),
      pdsLoop ls cf cc ds = insertAll ds (rawLoop ls cf cc []) := by
  intro ls
  induction ls with
  | nil =>
    intro cf cc ds
    cases cf with
    | none => rfl
    | some f => rfl
  | cons line rest ih =>
    intro cf cc ds
    cases hhl : headerBPath line with
    | some b =>
      cases cf with
      | none =>
        simp only [pdsLoop, rawLoop, hhl]
        exact ih (some b) [line] ds
      | some f =>
        simp only [pdsLoop, rawLoop, hhl, List.nil_append]
        rw [rawLoop_append rest (some b) [line] [(f, String.intercalate "\n" cc)]]
        rw [ih (some b) [line] (insertOrdered ds f (String.intercalate "\n" cc))]
        rfl
    | none =>
      cases cf with
      | none =>
        simp only [pdsLoop, rawLoop, hhl]
        exact ih none cc ds
      | some f =>
        simp only [pdsLoop, rawLoop, hhl]
        exact ih (some f) (cc ++ [line]) ds

theorem rawLoop_map_fst :
    ∀ (ls : List String) (cf : Option String) (cc : List String),
      (rawLoop ls cf cc []).map Prod.fst =
        (match cf with | none => [] | some f => [f]) ++ ls.filterMap headerBPath := by
  intro ls
  induction ls with
  | nil =>
    intro cf cc
    cases cf with
    | none => simp [rawLoop]
    | some f => simp [rawLoop]
  | cons line rest ih =>
    intro cf cc
    cases hhl : headerBPath line with
    | some b =>
      cases cf with
      | none =>
        simp only [rawLoop, hhl, List.filterMap_cons]
        rw [ih (some b) [line]]
        rfl
      | some f =>
        simp only [rawLoop, hhl, List.filterMap_cons, List.nil_append]
        rw [rawLoop_append rest (some b) [line] [(f, String.intercalate "\n" cc)]]
        simp only [List.map_append]
        rw [ih (some b) [line]]
        simp
    | none =>
      cases cf with
      | none =>
        simp only [rawLoop, hhl, List.filterMap_cons]
        exact ih none cc
      | some f =>
        simp only [rawLoop, hhl, List.filterMap_cons]
        exact ih (some f) (cc ++ [line])

theorem pdsLoop_no_headers :
    ∀ (ls : List String) (cc : List String) (ds : List (String × String)),
      (∀ l ∈ ls, headerBPath l = none) → pdsLoop ls none cc ds = ds := by
  intro ls
  induction ls with
  | nil => intro cc ds _; rfl
  | cons line rest ih =>
    intro cc ds hall
    have hhl : headerBPath line = none := hall line (List.mem_cons_self _ _)
    simp only [pdsLoop, hhl]
    exact ih cc ds (fun l hl => hall l (List.mem_cons_of_mem _ hl))

theorem pdsLoop_discard_prelude :
    ∀ (pre ls : List String) (cc : List String) (ds : List (String × String)),
      (∀ l ∈ pre, headerBPath l = none) →
      pdsLoop (pre ++ ls) none cc ds = pdsLoop ls none cc ds := by
  intro pre
  induction pre with
  | nil => intro ls cc ds _; rfl
  | cons line rest ih =>
    intro ls cc ds hall
    have hhl : headerBPath line = none := hall line (List.mem_cons_self _ _)
    simp only [List.cons_append, pdsLoop, hhl]
    exact ih ls cc ds (fun l hl => hall l (List.mem_cons_of_mem _ hl))

/-- C9: `parse_diff_sections` discards all lines before the first file-header
line (a header-free prefix does not change the result); a diff with zero
header lines yields zero sections and, being a total function, no exception;
each raw section's path is the `b/` path from its header; the section keys
are those paths in order of first appearance; and when the same path occurs
in several headers, the content kept for it is that of the last occurrence
(dict lookup equals first match in the reversed raw section list). -/
theorem parse_sections_spec (d : String) (pre ls : List String) (p : String) :
    parse_diff_sections d = parseSectionsLines (pySplit "\n" d)
    ∧ ((∀ l ∈ pre, headerBPath l = none) →
        parseSectionsLines (pre ++ ls) = parseSectionsLines ls)
    ∧ ((∀ l ∈ pySplit "\n" d, headerBPath l = none) → parse_diff_sections d = [])
    ∧ (parseSectionsLines ls).map Prod.fst = dedupFirst ((rawSections ls).map Prod.fst)
    ∧ (rawSections ls).map Prod.fst = ls.filterMap headerBPath
    ∧ lookupKV p (parseSectionsLines ls) = lookupKV p (rawSections ls).reverse := by
  refine ⟨rfl, ?_, ?_, ?_, ?_, ?_⟩
  · intro hall
    exact pdsLoop_discard_prelude pre ls [] [] hall
  · intro hall
    exact pdsLoop_no_headers (pySplit "\n" d) [] [] hall
  · show (pdsLoop ls none [] []).map Prod.fst = _
    rw [pdsLoop_insertAll ls none [] [], insertAll_map_fst (rawLoop ls none [] []) []]
    simp only [List.map_nil, List.nil_append]
    rfl
  · have h := rawLoop_map_fst ls none []
    simpa using h
  · show lookupKV p (pdsLoop ls none [] []) =
        lookupKV p (rawLoop ls none [] []).reverse
    rw [pdsLoop_insertAll ls none [] [], lookupKV_insertAll (rawLoop ls none [] []) [] p]
    cases lookupKV p (rawLoop ls none [] []).reverse <;> rfl

/-- C9 witness: a header-free diff parses to zero sections; a junk prelude
line is discarded; a line list with a duplicated path keeps the first
position and the last content. -/
theorem parse_sections_spec_witness :
    parse_diff_sections "hello\nworld" = []
    ∧ parseSectionsLines (["junk"] ++
        ["diff --git a/p b/q", "+1", "diff --git a/r b/s", "+2",
         "diff --git a/p b/q", "+3"]) =
      parseSectionsLines
        ["diff --git a/p b/q", "+1", "diff --git a/r b/s", "+2",
         "diff --git a/p b/q", "+3"]
    ∧ (parseSectionsLines
        ["diff --git a/p b/q", "+1", "diff --git a/r b/s", "+2",
         "diff --git a/p b/q", "+3"]).map Prod.fst = ["q", "s"]
    ∧ lookupKV "q" (parseSectionsLines
        ["diff --git a/p b/q", "+1", "diff --git a/r b/s", "+2",
         "diff --git a/p b/q", "+3"]) = some "diff --git a/p b/q\n+3" := by
  have h := parse_sections_spec "hello\nworld" ["junk"]
    ["diff --git a/p b/q", "+1", "diff --git a/r b/s", "+2",
     "diff --git a/p b/q", "+3"] "q"
  refine ⟨h.2.2.1 (by decide), h.2.1 (by decide), ?_, ?_⟩
  · rw [h.2.2.2.1]
    decide
  · rw [h.2.2.2.2.2]
    decide
